import Mathlib

/-!
Verification of the polymarket insider-detector core against its
natural-language specification.

The Python source is shallowly embedded: SQLite tables become lists of
records inside a `Db` structure, floating point arithmetic is modelled
over `ℚ`, and calls into external libraries (scipy's binomial test and
Pearson correlation, `math.log10`, `hashlib.sha256`, networkx's Louvain
partition, `uuid`) are taken as function parameters, since those
libraries are outside the repository.  Every other definition follows
the corresponding Python function line by line.
-/

namespace PolymarketDetector

/-- Python's `round(q, d)` modelled over `ℚ` (source rounds REAL values
to `d` decimal places before storing them; ties, which differ between
Python's half-even and `round`'s half-up, do not occur in any statement
below). -/
def roundTo (d : ℕ) (q : ℚ) : ℚ := (round (q * 10 ^ d) : ℤ) / 10 ^ d

/-- One pass of insertion into a list kept descending by `key`; used to
model SQL `ORDER BY key DESC` and Python's `list.sort(reverse=True)`. -/
def insertDesc {α κ : Type} [LinearOrder κ] (key : α → κ) (x : α) : List α → List α
  | [] => [x]
  | y :: ys => if key x < key y then y :: insertDesc key x ys else x :: y :: ys

/-- Stable sort, descending by `key`. -/
def sortDesc {α κ : Type} [LinearOrder κ] (key : α → κ) : List α → List α
  | [] => []
  | x :: xs => insertDesc key x (sortDesc key xs)

theorem mem_insertDesc {α κ : Type} [LinearOrder κ] (key : α → κ) (x a : α)
    (l : List α) : a ∈ insertDesc key x l ↔ a = x ∨ a ∈ l := by
  induction l with
  | nil => simp [insertDesc]
  | cons y ys ih =>
      simp only [insertDesc]
      split <;> simp only [List.mem_cons, ih] <;> tauto

theorem mem_sortDesc {α κ : Type} [LinearOrder κ] (key : α → κ) (a : α)
    (l : List α) : a ∈ sortDesc key l ↔ a ∈ l := by
  induction l with
  | nil => simp [sortDesc]
  | cons x xs ih => simp [sortDesc, mem_insertDesc, ih]

/-- A list already descending in `key` is left unchanged by `sortDesc`. -/
theorem sortDesc_eq_self {α κ : Type} [LinearOrder κ] (key : α → κ)
    (l : List α) (h : l.Pairwise (fun a b => key b ≤ key a)) :
    sortDesc key l = l := by
  induction l with
  | nil => rfl
  | cons x xs ih =>
      rcases List.pairwise_cons.mp h with ⟨hx, hxs⟩
      rw [sortDesc, ih hxs]
      cases xs with
      | nil => rfl
      | cons y ys =>
          rw [insertDesc, if_neg]
          exact not_lt.mpr (hx y (by simp))

/-- `np.std(l) == 0` for a nonempty list: every element equals the first. -/
def allSame {α : Type} [DecidableEq α] : List α → Bool
  | [] => true
  | x :: xs => xs.all (fun y => y = x)

theorem filter_sublist_filter {α : Type} (p q : α → Bool)
    (h : ∀ a, p a = true → q a = true) :
    ∀ l : List α, List.Sublist (l.filter p) (l.filter q) := by
  intro l
  induction l with
  | nil => simp
  | cons x xs ih =>
      by_cases hp : p x = true
      · rw [List.filter_cons_of_pos hp, List.filter_cons_of_pos (h x hp)]
        exact ih.cons₂ x
      · rw [List.filter_cons_of_neg (by simpa using hp)]
        by_cases hq : q x = true
        · rw [List.filter_cons_of_pos hq]
          exact ih.cons x
        · rw [List.filter_cons_of_neg (by simpa using hq)]
          exact ih

/-! ## `src/analysis/stats.py` -/

/-- `stats.compute_pnl` (stats.py lines 56-80).  `side` is the raw
string stored in the DB; any string other than `"BUY"` takes the SELL
branch, exactly as the Python `if side == "BUY" ... else` does. -/
def computePnl (price size : ℚ) (is_winner : Bool) (side : String) : ℚ :=
  if side = "BUY" then
    if is_winner then
      if 0 < price then size * (1 / price - 1) else 0
    else
      -size
  else
    if is_winner then
      size
    else
      if 0 < price then -(size * (1 / price - 1)) else 0

/-- `stats.timing_score` (stats.py lines 83-95). -/
def timingScoreFn (entry resolution : ℤ) : ℚ := ((resolution - entry : ℤ) : ℚ)

/-- The timing component of `stats.composite_insider_score`
(stats.py lines 129-139), including the `timing_avg > 0` guard. -/
def timingComponent (timing_avg : ℚ) : ℚ :=
  if 0 < timing_avg then
    let hours := timing_avg / 3600
    if hours < 1 then 25
    else if hours < 6 then 25 * (1 - (hours - 1) / 5)
    else if hours < 24 then 10 * (1 - (hours - 6) / 18)
    else 0
  else 0

/-- `stats.composite_insider_score` (stats.py lines 98-153).
`neglog10` stands for the external `lambda p, -math.log10(p)`;
`timing_avg = none` models the `float("inf")` the scorer passes when a
wallet has no positively-timed trade (every branch guard
`inf < c` is false, so the timing component contributes 0). -/
def compositeInsiderScore (neglog10 : ℚ → ℚ) (win_rate p_value : ℚ)
    (timing_avg : Option ℚ) (size_corr total_pnl : ℚ) (total_trades : ℕ) : ℚ :=
  let pScore : ℚ :=
    if 0 < p_value then min (neglog10 (max p_value (1 / 10 ^ 30)) / 15) 1 * 40 else 0
  let tScore : ℚ :=
    match timing_avg with
    | none => 0
    | some tv => timingComponent tv
  let cScore : ℚ := if 0 < size_corr then min size_corr 1 * 20 else 0
  let wScore : ℚ :=
    if 7 / 10 < win_rate then min ((win_rate - 7 / 10) / (3 / 10)) 1 * 10 else 0
  let vScore : ℚ :=
    if 20 ≤ total_trades then min (((total_trades : ℚ) - 20) / 80) 1 * 5 else 0
  -- `total_pnl` is accepted but unused, exactly as in the source.
  roundTo 2 (min (pScore + tScore + cScore + wScore + vScore) 100)

/-- `stats.binomial_p_value` (stats.py lines 9-29); `binomtest` is the
external scipy one-sided test. -/
def binomialPValue (binomtest : ℕ → ℕ → ℚ → ℚ) (wins total : ℕ)
    (avg_market_prob : ℚ) : ℚ :=
  if total = 0 ∨ avg_market_prob ≤ 0 ∨ 1 ≤ avg_market_prob then 1
  else binomtest wins total avg_market_prob

/-- `stats.size_win_correlation` (stats.py lines 32-53); `pearson` is
the external `scipy.stats.pearsonr` already normalised so that a NaN
result reads as 0. -/
def sizeWinCorrelation (pearson : List ℚ → List Bool → ℚ)
    (sizes : List ℚ) (wins : List Bool) : ℚ :=
  if sizes.length < 3 ∨ sizes.length ≠ wins.length then 0
  else if allSame sizes ∨ allSame wins then 0
  else pearson sizes wins

/-! ## Data model (`src/data/database.py` schema) -/

/-- A row of the `markets` table. -/
structure MarketRow where
  id : String
  condition_id : String
  question : String
  resolution_time : String
  outcome : Option String
  deriving DecidableEq, Repr

/-- A row of the `trades` table. -/
structure TradeRow where
  id : String
  market_id : String
  condition_id : String
  wallet_address : String
  eoa_address : Option String
  side : String
  outcome : Option String
  outcome_index : Option ℤ
  price : ℚ
  size : ℚ
  timestamp : ℤ
  transaction_hash : Option String
  is_winner : Option Bool
  deriving DecidableEq, Repr

/-- A row of the `wallet_scores` table (also the dict returned by
`WalletScorer.score_wallet`). -/
structure ScoreRow where
  wallet_address : String
  eoa_address : Option String
  total_trades : ℕ
  win_rate : ℚ
  avg_entry_before_resolution : Option ℚ
  p_value : ℚ
  size_win_correlation : ℚ
  total_pnl : ℚ
  insider_score : ℚ
  cluster_id : Option String
  last_updated : String
  deriving DecidableEq, Repr

/-- A row of the `clusters` table. -/
structure ClusterRow where
  cluster_id : String
  wallet_count : ℕ
  combined_pnl : ℚ
  shared_funding_source : Option String
  confidence : ℚ
  deriving DecidableEq, Repr

/-- The SQLite store: one list per table, plus the `ingestion_state`
key/value table. -/
structure Db where
  markets : List MarketRow
  trades : List TradeRow
  walletScores : List ScoreRow
  clusters : List ClusterRow
  ingestionState : List (String × String)
  deriving DecidableEq, Repr

/-! ## `src/data/database.py` operations -/

/-- The `id` primary-key collision test of `INSERT OR IGNORE`. -/
def hasId (rows : List TradeRow) (i : String) : Bool :=
  rows.any (fun t0 => t0.id = i)

/-- `Database.insert_trades` / the pipeline's `INSERT OR IGNORE`:
a record whose `id` (primary key) is already present is dropped. -/
def insertTradeRows (rows : List TradeRow) (ts : List TradeRow) : List TradeRow :=
  ts.foldl (fun acc t => if hasId acc t.id then acc else acc ++ [t]) rows

/-- `Database.insert_trades` applied to the store. -/
def insertTrades (db : Db) (ts : List TradeRow) : Db :=
  { db with trades := insertTradeRows db.trades ts }

/-- `SELECT COUNT(*) FROM trades` (`Database.get_trade_count`). -/
def tradeCount (db : Db) : ℕ := db.trades.length

/-- The `ingestion_state` key of a market's completion watermark, as
built by `Database.mark_market_trades_complete`:
`f"market_{market_id}_trades"`. -/
def watermarkKey (market_id : String) : String :=
  "market_" ++ market_id ++ "_trades"

/-- `INSERT OR REPLACE INTO ingestion_state` (`Database.set_ingestion_state`). -/
def upsertState (st : List (String × String)) (key value : String) :
    List (String × String) :=
  if st.any (fun kv => kv.1 = key) then
    st.map (fun kv => if kv.1 = key then (key, value) else kv)
  else st ++ [(key, value)]

/-- `Database.mark_market_trades_complete` (database.py lines 245-254). -/
def markMarketTradesComplete (db : Db) (market_id : String) (trade_count : ℕ) : Db :=
  { db with ingestionState :=
      upsertState db.ingestionState (watermarkKey market_id) (toString trade_count) }

/-- Does the `ingestion_state` table hold a completion watermark for
this market (the `NOT EXISTS` subquery of `get_markets_without_trades`)? -/
def hasWatermark (db : Db) (market_id : String) : Bool :=
  db.ingestionState.any (fun kv => kv.1 = watermarkKey market_id)

/-- Does any trade row reference this market (the
`HAVING COUNT(t.id) = 0` clause, negated)? -/
def hasTrades (db : Db) (market_id : String) : Bool :=
  db.trades.any (fun t => t.market_id = market_id)

/-- The `WHERE`/`HAVING` conditions of `get_markets_without_trades`:
resolved (`outcome IS NOT NULL`), no completion watermark, and no
stored trade rows. -/
def eligibleMarket (db : Db) (m : MarketRow) : Bool :=
  m.outcome.isSome && !hasWatermark db m.id && !hasTrades db m.id

/-- `Database.get_markets_without_trades` (database.py lines 129-144):
resolved markets with no completion watermark AND no stored trade rows,
ordered by `resolution_time DESC`, capped by `LIMIT 50000`. -/
def getMarketsWithoutTrades (db : Db) : List MarketRow :=
  (sortDesc (fun m => m.resolution_time)
      (db.markets.filter (eligibleMarket db))).take 50000

/-- `Database.mark_winners` (database.py lines 209-224): SQL
`SET is_winner = (outcome_index = ?)` NULL-propagates when
`outcome_index` is NULL, hence the `Option.map`. -/
def markWinners (db : Db) (market_id : String) (winning_outcome : String) : Db :=
  let winning_index : ℤ := if winning_outcome = "Yes" then 0 else 1
  { db with trades :=
      db.trades.map (fun t =>
        if t.market_id = market_id then
          { t with is_winner := t.outcome_index.map (fun i => i = winning_index) }
        else t) }

/-! ## `src/data/polymarket_client.py` -/

/-- A raw Data-API trade payload.  Each field holds the string the
Python f-string in `make_trade_id` would render for it (missing keys
render as `""` via `trade.get(k, '')`); fields not participating in the
fingerprint are carried alongside to state what the id does not depend
on. -/
structure RawTrade where
  transactionHash : String
  conditionId : String
  outcomeIndex : String
  timestamp : String
  proxyWallet : String
  size : String
  side : String
  outcome : String
  price : String
  makerAddress : String
  deriving DecidableEq, Repr

/-- The pre-hash string of `PolymarketClient.make_trade_id`
(polymarket_client.py lines 379-387). -/
def makeTradeRaw (t : RawTrade) : String :=
  t.transactionHash ++ "_" ++ t.conditionId ++ "_" ++ t.outcomeIndex ++ "_" ++
    t.timestamp ++ "_" ++ t.proxyWallet ++ "_" ++ t.size

/-- `PolymarketClient.make_trade_id`; `h` stands for the external
`lambda s, hashlib.sha256(s.encode()).hexdigest()[:16]`. -/
def makeTradeId (h : String → String) (t : RawTrade) : String :=
  h (makeTradeRaw t)

/-! ## `scripts/ingest.py` — phase 2 trade ingestion -/

/-- What the pipeline does for one selected market once its producer has
fetched all pages and the writer has drained them (ingest.py
`producer` + the `_end_market` sentinel branch of `consumer`):
normalized trades are inserted with `INSERT OR IGNORE` (the SQLite
insert omits `eoa_address`, and `normalize_trade` stamps
`market_id := market["id"]` and `is_winner := None`), winners are
marked when the market has an outcome, and the completion watermark is
written.  A market whose `condition_id` is falsy is skipped by the
producer before the sentinel, leaving the store untouched.
`remote` maps a `condition_id` to the normalized trades the Data API
yields for it; `normalizeForInsert` is what reaches the `trades` table
for one fetched record. -/
def normalizeForInsert (mid : String) (t : TradeRow) : TradeRow :=
  { t with market_id := mid, is_winner := none, eoa_address := none }

def processMarket (remote : String → List TradeRow) (db : Db) (m : MarketRow) : Db :=
  if m.condition_id = "" then db
  else
    let fetched := (remote m.condition_id).map (normalizeForInsert m.id)
    let db1 := insertTrades db fetched
    let db2 :=
      match m.outcome with
      | some oc => markWinners db1 m.id oc
      | none => db1
    markMarketTradesComplete db2 m.id fetched.length

/-- Sequential composition of per-market processing over a list of
selected markets (markets complete in nondeterministic order in the
concurrent pipeline; the claims below are stated for a clean execution
in selection order). -/
def processAll (remote : String → List TradeRow) (db : Db) (ms : List MarketRow) : Db :=
  ms.foldl (processMarket remote) db

/-- `ingest_all_trades`: select with `get_markets_without_trades`, then
process every selected market. -/
def ingestAllTrades (remote : String → List TradeRow) (db : Db) : Db :=
  processAll remote db (getMarketsWithoutTrades db)

/-! ## `src/analysis/wallet_scorer.py` -/

/-- External statistical primitives consumed by the scorer: scipy's
one-sided binomial test, scipy's Pearson correlation (NaN already
normalised to 0), and `lambda p, -math.log10(p)`. -/
structure StatExt where
  binomtest : ℕ → ℕ → ℚ → ℚ
  pearson : List ℚ → List Bool → ℚ
  neglog10 : ℚ → ℚ

/-- Python truthiness of the stored `is_winner` column (0/1 or NULL). -/
def winnerFlag (t : TradeRow) : Bool := t.is_winner = some true

/-- The filter `score_wallet` applies before anything else
(wallet_scorer.py lines 84-87): keep trades whose `is_winner` is set
and whose side is `"BUY"`. -/
def resolvedBuyTrades (trades : List TradeRow) : List TradeRow :=
  trades.filter (fun t => t.is_winner.isSome && (t.side = "BUY" : Bool))

/-- `WalletScorer.score_wallet` (wallet_scorer.py lines 68-151).
`resTs` models `_get_resolution_ts` (DB lookup plus timestamp-string
parsing); `nowStr` models `datetime.now().isoformat()`; `avg_timing`
is `none` when no trade has a positive lead, which the source encodes
as `float("inf")`. -/
def scoreWallet (ext : StatExt) (minTrades : ℕ) (resTs : String → Option ℤ)
    (nowStr : String) (wallet : String) (trades : List TradeRow) :
    Option ScoreRow :=
  let resolved := resolvedBuyTrades trades
  if resolved.length < minTrades then none
  else
    let total := resolved.length
    let wins := (resolved.filter (fun t => winnerFlag t)).length
    let win_rate : ℚ := if 0 < total then (wins : ℚ) / total else 0
    let avg_entry_price : ℚ := (resolved.map (fun t => t.price)).sum / total
    let p_val := binomialPValue ext.binomtest wins total avg_entry_price
    let size_corr := sizeWinCorrelation ext.pearson
      (resolved.map (fun t => t.size)) (resolved.map winnerFlag)
    let timing_values : List ℚ := resolved.filterMap (fun t =>
      (resTs t.market_id).bind (fun res =>
        let ts := timingScoreFn t.timestamp res
        if 0 < ts then some ts else none))
    let avg_timing : Option ℚ :=
      if timing_values.isEmpty then none
      else some (timing_values.sum / timing_values.length)
    let total_pnl : ℚ :=
      (resolved.map (fun t => computePnl t.price t.size (winnerFlag t) t.side)).sum
    let insider := compositeInsiderScore ext.neglog10 win_rate p_val avg_timing
      size_corr total_pnl total
    some
      { wallet_address := wallet
        eoa_address := trades.head?.bind (fun t => t.eoa_address)
        total_trades := total
        win_rate := roundTo 6 win_rate
        avg_entry_before_resolution := avg_timing.map (roundTo 2)
        p_value := p_val
        size_win_correlation := roundTo 6 size_corr
        total_pnl := roundTo 2 total_pnl
        insider_score := insider
        cluster_id := none
        last_updated := nowStr }

/-- `INSERT OR REPLACE INTO wallet_scores` keyed on the primary key
`wallet_address`. -/
def upsertScore (ws : List ScoreRow) (s : ScoreRow) : List ScoreRow :=
  if ws.any (fun r => r.wallet_address = s.wallet_address) then
    ws.map (fun r => if r.wallet_address = s.wallet_address then s else r)
  else ws ++ [s]

/-- `WalletScorer.save_scores` (wallet_scorer.py lines 177-193):
early-returns on an empty list, otherwise upserts every row; no other
table is touched. -/
def saveScores (db : Db) (scores : List ScoreRow) : Db :=
  if scores.isEmpty then db
  else { db with walletScores := scores.foldl upsertScore db.walletScores }

/-- `SELECT ... FROM wallet_scores WHERE wallet_address = ?`. -/
def lookupScore (ws : List ScoreRow) (wallet : String) : Option ScoreRow :=
  ws.find? (fun r => r.wallet_address = wallet)

/-! ## `src/analysis/cluster_detector.py` -/

/-- Module constants of cluster_detector.py (lines 15-26). -/
def MIN_EDGE_WEIGHT : ℕ := 50

def MIN_CLUSTER_SIZE : ℕ := 3

def MIN_DEGREE : ℕ := 15

def MIN_CLUSTER_CONFIDENCE : ℚ := 35

/-- An undirected networkx edge with its data dict. -/
structure GEdge where
  u : String
  v : String
  weight : ℕ
  same_side_count : ℕ
  deriving DecidableEq, Repr

/-- The wallet-correlation graph: node and edge lists. -/
structure Graph where
  nodes : List String
  edges : List GEdge
  deriving DecidableEq, Repr

/-- networkx node degree: number of incident edges (the graphs built by
`_find_temporal_pairs` have no self-loops, cf. the `w1 == w2` guard). -/
def degreeIn (edges : List GEdge) (n : String) : ℕ :=
  (edges.filter (fun e => e.u = n || e.v = n)).length

/-- The pruning tail of `ClusterDetector.build_temporal_graph`
(cluster_detector.py lines 93-115): drop edges with
`weight < MIN_EDGE_WEIGHT`; drop nodes left isolated; then collect, in
one pass over the surviving graph, the nodes of degree `< MIN_DEGREE`
and remove them together with their incident edges. -/
def pruneGraph (g : Graph) : Graph :=
  let strongEdges := g.edges.filter (fun e => !(e.weight < MIN_EDGE_WEIGHT : Bool))
  let nonIsolated := g.nodes.filter (fun n => !(degreeIn strongEdges n = 0 : Bool))
  let lowDegree := nonIsolated.filter
    (fun n => (degreeIn strongEdges n < MIN_DEGREE : Bool))
  { nodes := nonIsolated.filter (fun n => !(n ∈ lowDegree : Bool))
    edges := strongEdges.filter
      (fun e => !(e.u ∈ lowDegree : Bool) && !(e.v ∈ lowDegree : Bool)) }

/-- The induced subgraph's edge list (`self.graph.subgraph(wallets)`). -/
def subgraphEdges (g : Graph) (wallets : List String) : List GEdge :=
  g.edges.filter (fun e => wallets.contains e.u && wallets.contains e.v)

/-- The confidence formula of `ClusterDetector.detect_communities`
(cluster_detector.py lines 228-232):
`round(min((edge_density*0.5 + same_side_ratio*0.5)*100, 100), 2)`
with `edge_density = actual_edges / (n*(n-1)/2)` and the same-side
fraction `Σ same_side / Σ weight`, each guarded to 0 when its
denominator is 0. -/
def clusterConfidence (g : Graph) (wallets : List String) : ℚ :=
  let sub := subgraphEdges g wallets
  let total_edge_weight : ℚ := ((sub.map (fun e => e.weight)).sum : ℕ)
  let same_side_total : ℚ := ((sub.map (fun e => e.same_side_count)).sum : ℕ)
  let max_edges : ℚ := (wallets.length : ℚ) * ((wallets.length : ℚ) - 1) / 2
  let edge_density : ℚ := if 0 < max_edges then (sub.length : ℚ) / max_edges else 0
  let same_side_frac : ℚ :=
    if 0 < total_edge_weight then same_side_total / total_edge_weight else 0
  roundTo 2 (min ((edge_density * (1 / 2) + same_side_frac * (1 / 2)) * 100) 100)

/-- The cluster dict `detect_communities` builds (extra reporting keys
`wallets`, `edge_weight`, `same_side_ratio` included). -/
structure Cluster where
  cluster_id : String
  wallet_count : ℕ
  combined_pnl : ℚ
  shared_funding_source : Option String
  confidence : ℚ
  wallets : List String
  edge_weight : ℕ
  same_side_share : ℚ
  deriving DecidableEq, Repr

/-- The body of the `for community in communities` loop of
`ClusterDetector.detect_communities` (cluster_detector.py lines
201-252): discard communities below `MIN_CLUSTER_SIZE`, compute the
confidence, discard below `MIN_CLUSTER_CONFIDENCE`, sum the members'
stored `total_pnl` (unscored wallets contribute 0), and emit the
cluster dict.  `cid` is the `uuid`-generated identifier. -/
def mkCluster (g : Graph) (scores : List ScoreRow) (cid : String)
    (community : List String) : Option Cluster :=
  if community.length < MIN_CLUSTER_SIZE then none
  else
    let sub := subgraphEdges g community
    let total_edge_weight := (sub.map (fun e => e.weight)).sum
    let same_side_total : ℚ := ((sub.map (fun e => e.same_side_count)).sum : ℕ)
    let combined_pnl : ℚ := (community.map (fun w =>
      match lookupScore scores w with
      | some r => r.total_pnl
      | none => 0)).sum
    let confidence := clusterConfidence g community
    if confidence < MIN_CLUSTER_CONFIDENCE then none
    else
      some
        { cluster_id := cid
          wallet_count := community.length
          combined_pnl := roundTo 2 combined_pnl
          shared_funding_source := none
          confidence := confidence
          wallets := community
          edge_weight := total_edge_weight
          same_side_share := roundTo 3 (if 0 < ((total_edge_weight : ℕ) : ℚ) then
            same_side_total / ((total_edge_weight : ℕ) : ℚ) else 0) }

/-- `ClusterDetector.detect_communities` (cluster_detector.py lines
182-256).  `comms` is the partition returned by the external
`nx.community.louvain_communities` call and `ids` the stream of
`uuid`-generated cluster identifiers; surviving clusters are sorted by
confidence, descending. -/
def detectCommunities (g : Graph) (scores : List ScoreRow) (ids : ℕ → String)
    (comms : List (List String)) : List Cluster :=
  if g.nodes.length = 0 then []
  else
    sortDesc (fun c => c.confidence)
      ((comms.enum.filterMap (fun p => mkCluster g scores (ids p.1) p.2)))

/-- `INSERT OR REPLACE INTO clusters` keyed on `cluster_id`. -/
def upsertClusterRow (rows : List ClusterRow) (r : ClusterRow) : List ClusterRow :=
  if rows.any (fun r0 => r0.cluster_id = r.cluster_id) then
    rows.map (fun r0 => if r0.cluster_id = r.cluster_id then r else r0)
  else rows ++ [r]

/-- The `clusters`-table row of a detected cluster. -/
def toClusterRow (c : Cluster) : ClusterRow :=
  { cluster_id := c.cluster_id
    wallet_count := c.wallet_count
    combined_pnl := c.combined_pnl
    shared_funding_source := c.shared_funding_source
    confidence := c.confidence }

/-- `UPDATE wallet_scores SET cluster_id = ? WHERE wallet_address = ?`. -/
def linkWallet (ws : List ScoreRow) (cid wallet : String) : List ScoreRow :=
  ws.map (fun r =>
    if r.wallet_address = wallet then { r with cluster_id := some cid } else r)

/-- One iteration of the `for cluster in clusters` loop of
`save_clusters`: insert the cluster row, then relink each member. -/
def saveClustersStep (acc : List ClusterRow × List ScoreRow) (c : Cluster) :
    List ClusterRow × List ScoreRow :=
  (upsertClusterRow acc.1 (toClusterRow c),
    c.wallets.foldl (fun ws w => linkWallet ws c.cluster_id w) acc.2)

/-- `ClusterDetector.save_clusters` (cluster_detector.py lines
258-285): `DELETE FROM clusters`, `UPDATE wallet_scores SET
cluster_id = NULL`, then insert each cluster row and relink its
members. -/
def saveClusters (db : Db) (clusters : List Cluster) : Db :=
  let cleared := db.walletScores.map (fun r => { r with cluster_id := none })
  let final := clusters.foldl saveClustersStep (([] : List ClusterRow), cleared)
  { db with clusters := final.1, walletScores := final.2 }

/-- `ClusterDetector.run` (cluster_detector.py lines 287-297) after the
graph has been built: detect communities, and persist them only when
the detected list is nonempty (`if clusters: self.save_clusters(...)`).
`g` is the pruned graph `build_temporal_graph` produced and `comms`
the external Louvain partition. -/
def clusterRun (db : Db) (g : Graph) (ids : ℕ → String)
    (comms : List (List String)) : Db :=
  let clusters := detectCommunities g db.walletScores ids comms
  if clusters.isEmpty then db else saveClusters db clusters

/-! ## `RateLimiter` (`src/data/polymarket_client.py` lines 74-92) -/

/-- The purge step of `RateLimiter.acquire`: keep recorded completion
timestamps still inside the sliding window,
`[t for t in self._timestamps if now - t < self._window]`. -/
def purge (T : ℚ) (st : List ℚ) (now : ℚ) : List ℚ :=
  st.filter (fun t => now - t < T)

/-- Executions of a `RateLimiter(N, T)` under any interleaving of
`acquire` calls.  Each iteration of the `while True` loop runs without
an intervening `await` (asyncio is single-threaded), so check, purge
and append are atomic; `time.monotonic()` is nondecreasing.
`Run T N last st comps` relates the loop's current timestamp list `st`
and the multiset `comps` of acquire completion times after any finite
interleaving whose latest observed clock is `last`:
* `init` — a fresh limiter (`self._timestamps = []`);
* `fail` — a loop iteration that finds the purged window full and goes
  back to sleep;
* `succ` — an iteration that finds room, records `now` and completes. -/
inductive Run (T : ℚ) (N : ℕ) : ℚ → List ℚ → List ℚ → Prop
  | init (t0 : ℚ) : Run T N t0 [] []
  | fail {last st comps} (now : ℚ) (hmono : last ≤ now)
      (hfull : ¬ (purge T st now).length < N)
      (h : Run T N last st comps) : Run T N now (purge T st now) comps
  | succ {last st comps} (now : ℚ) (hmono : last ≤ now)
      (hroom : (purge T st now).length < N)
      (h : Run T N last st comps) :
      Run T N now (purge T st now ++ [now]) (comps ++ [now])

/-! ## Helper lemmas for trade insertion (C3) -/

theorem hasId_step (rows : List TradeRow) (x : TradeRow) (i : String)
    (h : hasId rows i = true) :
    hasId (if hasId rows x.id then rows else rows ++ [x]) i = true := by
  split
  · exact h
  · simp only [hasId, List.any_append, Bool.or_eq_true]
    exact Or.inl h

theorem hasId_insertTradeRows_mono (ts : List TradeRow) :
    ∀ (rows : List TradeRow) (i : String), hasId rows i = true →
      hasId (insertTradeRows rows ts) i = true := by
  induction ts with
  | nil => intro rows i h; exact h
  | cons t ts ih =>
      intro rows i h
      simp only [insertTradeRows, List.foldl_cons] at *
      exact ih _ i (hasId_step rows t i h)

theorem hasId_insertTradeRows_self (ts : List TradeRow) :
    ∀ (rows : List TradeRow) (t : TradeRow), t ∈ ts →
      hasId (insertTradeRows rows ts) t.id = true := by
  induction ts with
  | nil => intro rows t h; cases h
  | cons t0 ts ih =>
      intro rows t h
      simp only [insertTradeRows, List.foldl_cons]
      rcases List.mem_cons.mp h with rfl | hmem
      · apply hasId_insertTradeRows_mono
        split
        · assumption
        · simp [hasId]
      · exact ih _ t hmem

theorem insertTradeRows_eq_of_hasId (ts : List TradeRow) :
    ∀ rows : List TradeRow, (∀ t ∈ ts, hasId rows t.id = true) →
      insertTradeRows rows ts = rows := by
  induction ts with
  | nil => intro rows _; rfl
  | cons t ts ih =>
      intro rows h
      simp only [insertTradeRows, List.foldl_cons]
      rw [if_pos (h t (by simp))]
      exact ih rows (fun t1 ht1 => h t1 (by simp [ht1]))

/-- **C3.** Ingestion idempotence via deterministic fingerprints: the
trade id depends on exactly the (transaction hash, condition id,
outcome index, timestamp, wallet, size) fields of the raw payload —
two payloads agreeing on those six get the same id no matter how the
remaining fields differ — and re-inserting the same list of normalized
records with `INSERT OR IGNORE` leaves the stored trade count
unchanged. -/
theorem trade_id_deterministic_and_insert_idempotent :
    (∀ (h : String → String) (t1 t2 : RawTrade),
      t1.transactionHash = t2.transactionHash →
      t1.conditionId = t2.conditionId →
      t1.outcomeIndex = t2.outcomeIndex →
      t1.timestamp = t2.timestamp →
      t1.proxyWallet = t2.proxyWallet →
      t1.size = t2.size →
      makeTradeId h t1 = makeTradeId h t2) ∧
    (∀ (db : Db) (ts : List TradeRow),
      tradeCount (insertTrades (insertTrades db ts) ts) =
        tradeCount (insertTrades db ts)) := by
  constructor
  · intro h t1 t2 h1 h2 h3 h4 h5 h6
    unfold makeTradeId makeTradeRaw
    rw [h1, h2, h3, h4, h5, h6]
  · intro db ts
    unfold tradeCount insertTrades
    simp only
    rw [insertTradeRows_eq_of_hasId ts (insertTradeRows db.trades ts)
      (fun t ht => hasId_insertTradeRows_self ts db.trades t ht)]

/-- Witness for C3 at concrete inputs: two payloads agreeing on the six
fingerprint fields but differing in `side` and `price` get equal ids. -/
theorem trade_id_deterministic_witness :
    makeTradeId (fun s => s)
        { transactionHash := "0xabc", conditionId := "c1", outcomeIndex := "0",
          timestamp := "1700000000", proxyWallet := "0xw", size := "100.0",
          side := "BUY", outcome := "Yes", price := "0.25", makerAddress := "0xe" } =
      makeTradeId (fun s => s)
        { transactionHash := "0xabc", conditionId := "c1", outcomeIndex := "0",
          timestamp := "1700000000", proxyWallet := "0xw", size := "100.0",
          side := "SELL", outcome := "No", price := "0.75", makerAddress := "0xf" } :=
  trade_id_deterministic_and_insert_idempotent.1 (fun s => s) _ _
    rfl rfl rfl rfl rfl rfl

/-- **C4 counterexample.** The timing component is not a single linear
decay from 25 at 1 hour to 0 at 24 hours, and it is not weakly
decreasing on the 1-to-24-hour range: an average lead of 5 hours
(18000 s) scores 5 while a lead of 6 hours (21600 s) scores 10, and
the claimed line through (1 h, 25) and (24 h, 0) would give
`25 * (1 - (6 - 1) / 23)` at 6 hours, not 10. -/
theorem timing_component_counterexample :
    timingComponent 18000 < timingComponent 21600 ∧
    timingComponent 21600 ≠ 25 * (1 - (6 - 1) / 23) := by
  constructor
  · norm_num [timingComponent]
  · norm_num [timingComponent]

/-- `timingComponent` with its `let` expanded, for rewriting. -/
theorem timingComponent_eq (tv : ℚ) :
    timingComponent tv =
      if 0 < tv then
        if tv / 3600 < 1 then 25
        else if tv / 3600 < 6 then 25 * (1 - (tv / 3600 - 1) / 5)
        else if tv / 3600 < 24 then 10 * (1 - (tv / 3600 - 6) / 18)
        else 0
      else 0 := rfl

/-- **C4 (amended).** The timing component of the composite score is at
most 25 points for every average lead; it gives the full 25 points for
a positive lead under 1 hour; it decays linearly from 25 at 1 hour to
0 at 6 hours; at 6 hours it restarts at 10 and decays linearly to 0 at
24 hours; leads of 24 hours or more, and non-positive leads, score 0. -/
theorem timing_component_piecewise (tv : ℚ) :
    timingComponent tv ≤ 25 ∧
    (0 < tv → tv / 3600 < 1 → timingComponent tv = 25) ∧
    (1 ≤ tv / 3600 → tv / 3600 < 6 →
      timingComponent tv = 25 * (1 - (tv / 3600 - 1) / 5)) ∧
    (6 ≤ tv / 3600 → tv / 3600 < 24 →
      timingComponent tv = 10 * (1 - (tv / 3600 - 6) / 18)) ∧
    (24 ≤ tv / 3600 → timingComponent tv = 0) ∧
    (tv ≤ 0 → timingComponent tv = 0) := by
  rw [timingComponent_eq]
  constructor
  · split_ifs with h1 h2 h3 h4 <;> linarith
  refine ⟨fun h1 h2 => ?_, fun h1 h2 => ?_, fun h1 h2 => ?_, fun h1 => ?_,
    fun h1 => ?_⟩
  · rw [if_pos h1, if_pos h2]
  · have h0 : 0 < tv := by nlinarith [h1]
    rw [if_pos h0, if_neg (by linarith), if_pos h2]
  · have h0 : 0 < tv := by nlinarith [h1]
    rw [if_pos h0, if_neg (by linarith), if_neg (by linarith), if_pos h2]
  · have h0 : 0 < tv := by nlinarith [h1]
    rw [if_pos h0, if_neg (by linarith), if_neg (by linarith),
      if_neg (by linarith)]
  · rw [if_neg (not_lt.mpr h1)]

/-- Witness for C4 at a concrete lead: half an hour scores the full 25. -/
theorem timing_component_witness :
    (0 : ℚ) < 1800 ∧ (1800 : ℚ) / 3600 < 1 ∧ timingComponent 1800 = 25 :=
  ⟨by norm_num, by norm_num,
    (timing_component_piecewise 1800).2.1 (by norm_num) (by norm_num)⟩

/-- **C5 counterexample.** A losing BUY at price 0 contributes `-size`,
not 0: the `price <= 0` guard zeroes only the two branches that
divide by the price. -/
theorem pnl_zero_price_counterexample :
    computePnl 0 100 false "BUY" = -100 ∧ (-100 : ℚ) ≠ 0 := by
  constructor
  · norm_num [computePnl]
  · norm_num

/-- **C5 (amended).** Per-trade PnL: for positive prices, a winning BUY
yields `size*(1/price - 1)`, a losing BUY `-size`, a winning SELL
`+size`, a losing SELL `-size*(1/price - 1)`; a non-positive price
zeroes the two dividing branches (winning BUY, losing SELL) while the
losing-BUY and winning-SELL branches are price-independent; a winning
BUY of size 100 at price 0.25 yields 300 and the same trade losing
yields -100. -/
theorem pnl_cases (price size : ℚ) :
    (0 < price →
      computePnl price size true "BUY" = size * (1 / price - 1) ∧
      computePnl price size false "SELL" = -(size * (1 / price - 1))) ∧
    computePnl price size false "BUY" = -size ∧
    computePnl price size true "SELL" = size ∧
    (price ≤ 0 →
      computePnl price size true "BUY" = 0 ∧
      computePnl price size false "SELL" = 0) ∧
    computePnl (1 / 4) 100 true "BUY" = 300 ∧
    computePnl (1 / 4) 100 false "BUY" = -100 := by
  refine ⟨fun hp => ⟨?_, ?_⟩, ?_, ?_, fun hp => ⟨?_, ?_⟩, ?_, ?_⟩
  · simp [computePnl, hp]
  · simp [computePnl, hp]
  · simp [computePnl]
  · simp [computePnl]
  · simp [computePnl, not_lt.mpr hp]
  · simp [computePnl, not_lt.mpr hp]
  · norm_num [computePnl]
  · norm_num [computePnl]

/-- Witness for C5 at the spec's round-trip input. -/
theorem pnl_cases_witness :
    (0 : ℚ) < 1 / 4 ∧ computePnl (1 / 4) 100 true "BUY" = 100 * (1 / (1 / 4) - 1) :=
  ⟨by norm_num, ((pnl_cases (1 / 4) 100).1 (by norm_num)).1⟩

/-- **C7.** `score_wallet` returns `None` exactly when the wallet has
fewer BUY trades with a set winner flag than the configured minimum,
and a score record otherwise; the threshold count never includes a
SELL or a trade on an unresolved market. -/
theorem score_wallet_threshold (ext : StatExt) (minTrades : ℕ)
    (resTs : String → Option ℤ) (nowStr wallet : String)
    (trades : List TradeRow) (hmin : 0 < minTrades) :
    (scoreWallet ext minTrades resTs nowStr wallet trades = none ↔
      (resolvedBuyTrades trades).length < minTrades) ∧
    (∀ t ∈ resolvedBuyTrades trades, t.side = "BUY" ∧ t.is_winner ≠ none) := by
  constructor
  · unfold scoreWallet
    by_cases h : (resolvedBuyTrades trades).length < minTrades
    · simp [h]
    · simp [h]
  · intro t ht
    have := List.of_mem_filter ht
    simp only [Bool.and_eq_true, decide_eq_true_eq, Option.isSome_iff_ne_none] at this
    exact ⟨this.2, this.1⟩

/-- Witness for C7: with the default minimum of 20, an empty trade
history is not scored. -/
theorem score_wallet_threshold_witness :
    scoreWallet ⟨fun _ _ _ => 1, fun _ _ => 0, fun _ => 0⟩ 20 (fun _ => none)
        "2024-01-01" "0xw" [] = none ∧ (0 : ℕ) < 20 :=
  ⟨(score_wallet_threshold ⟨fun _ _ _ => 1, fun _ _ => 0, fun _ => 0⟩ 20
      (fun _ => none) "2024-01-01" "0xw" [] (by decide)).1.mpr (by decide),
    by decide⟩

/-! ## Cluster-detection lemmas (C6) -/

theorem mkCluster_eq_none_iff (g : Graph) (scores : List ScoreRow) (cid : String)
    (community : List String) :
    mkCluster g scores cid community = none ↔
      community.length < MIN_CLUSTER_SIZE ∨
      clusterConfidence g community < MIN_CLUSTER_CONFIDENCE := by
  unfold mkCluster
  by_cases h1 : community.length < MIN_CLUSTER_SIZE
  · simp [h1]
  · by_cases h2 : clusterConfidence g community < MIN_CLUSTER_CONFIDENCE
    · simp [h1, h2]
    · simp [h1, h2]

theorem mkCluster_some_fields {g : Graph} {scores : List ScoreRow} {cid : String}
    {community : List String} {c : Cluster}
    (h : mkCluster g scores cid community = some c) :
    c.wallets = community ∧ c.wallet_count = community.length ∧
      c.confidence = clusterConfidence g community ∧
      MIN_CLUSTER_SIZE ≤ community.length ∧
      MIN_CLUSTER_CONFIDENCE ≤ clusterConfidence g community := by
  unfold mkCluster at h
  by_cases h1 : community.length < MIN_CLUSTER_SIZE
  · simp [h1] at h
  · by_cases h2 : clusterConfidence g community < MIN_CLUSTER_CONFIDENCE
    · simp [h1, h2] at h
    · simp only [if_neg h1, if_neg h2, Option.some.injEq] at h
      subst h
      exact ⟨rfl, rfl, rfl, not_lt.mp h1, not_lt.mp h2⟩

/-- **C6.** Every cluster emitted by `detect_communities` has at least
`MIN_CLUSTER_SIZE = 3` member wallets and confidence at least
`MIN_CLUSTER_CONFIDENCE = 35`, its `confidence` field is exactly the
`round(min((edge_density*0.5 + same_side_ratio*0.5)*100, 100), 2)`
formula evaluated on its community's induced subgraph
(`clusterConfidence`); and a community is discarded (maps to no
cluster) precisely when it violates one of the two thresholds. -/
theorem cluster_output_thresholds (g : Graph) (scores : List ScoreRow)
    (ids : ℕ → String) (comms : List (List String)) :
    (∀ c ∈ detectCommunities g scores ids comms,
      MIN_CLUSTER_SIZE ≤ c.wallet_count ∧
      MIN_CLUSTER_CONFIDENCE ≤ c.confidence ∧
      c.confidence = clusterConfidence g c.wallets ∧
      c.wallet_count = c.wallets.length) ∧
    (∀ (cid : String) (community : List String),
      mkCluster g scores cid community = none ↔
        community.length < MIN_CLUSTER_SIZE ∨
        clusterConfidence g community < MIN_CLUSTER_CONFIDENCE) := by
  constructor
  · intro c hc
    unfold detectCommunities at hc
    split at hc
    · cases hc
    · rw [mem_sortDesc] at hc
      rcases List.mem_filterMap.mp hc with ⟨p, _, hp⟩
      rcases mkCluster_some_fields hp with ⟨hw, hn, hconf, hsz, hcf⟩
      refine ⟨?_, ?_, ?_, ?_⟩
      · rw [hn]; exact hsz
      · rw [hconf]; exact hcf
      · rw [hconf, hw]
      · rw [hn, hw]
  · exact mkCluster_eq_none_iff g scores

/-- Concrete 3-wallet triangle graph: all edges at the minimum weight,
always same-side. -/
def gC6 : Graph :=
  { nodes := ["a", "b", "c"]
    edges := [⟨"a", "b", 50, 50⟩, ⟨"b", "c", 50, 50⟩, ⟨"a", "c", 50, 50⟩] }

/-- The cluster the detector emits on `gC6`. -/
def cC6 : Cluster :=
  { cluster_id := "c0", wallet_count := 3, combined_pnl := 0,
    shared_funding_source := none, confidence := 100,
    wallets := ["a", "b", "c"], edge_weight := 150, same_side_share := 1 }

/-- Witness for C6: an undersized 2-wallet community is discarded, and
the emitted triangle cluster carries confidence 100 ≥ 35. -/
theorem cluster_output_thresholds_witness :
    mkCluster gC6 [] "c0" ["a", "b"] = none ∧
    MIN_CLUSTER_CONFIDENCE ≤ cC6.confidence := by
  constructor
  · exact ((cluster_output_thresholds gC6 [] (fun _ => "c0") []).2 "c0"
      ["a", "b"]).mpr (Or.inl (by norm_num [MIN_CLUSTER_SIZE]))
  · have hconf : clusterConfidence gC6 ["a", "b", "c"] = 100 := by
      have hsub : subgraphEdges gC6 ["a", "b", "c"] = gC6.edges := by decide
      unfold clusterConfidence
      rw [hsub]
      norm_num [gC6, roundTo]
    have hmk : mkCluster gC6 [] "c0" ["a", "b", "c"] = some cC6 := by
      unfold mkCluster
      rw [if_neg (by norm_num [MIN_CLUSTER_SIZE])]
      simp only [hconf]
      rw [if_neg (by norm_num [MIN_CLUSTER_CONFIDENCE])]
      simp [gC6, subgraphEdges, lookupScore, roundTo, cC6]
      norm_num
    have hdet : detectCommunities gC6 [] (fun _ => "c0") [["a", "b", "c"]] = [cC6] := by
      unfold detectCommunities
      rw [if_neg (by decide)]
      simp [List.enum, List.filterMap, hmk, sortDesc, insertDesc]
    have hmem : cC6 ∈ detectCommunities gC6 [] (fun _ => "c0") [["a", "b", "c"]] := by
      rw [hdet]
      exact List.mem_singleton.mpr rfl
    exact ((cluster_output_thresholds gC6 [] (fun _ => "c0")
      [["a", "b", "c"]]).1 cC6 hmem).2.1

/-! ## Graph pruning (C8) -/

/-- A hub wallet connected by minimum-weight edges to 15 spoke wallets
that have no other connections. -/
def spokeEdges : List GEdge :=
  [⟨"h", "s01", 50, 50⟩, ⟨"h", "s02", 50, 50⟩, ⟨"h", "s03", 50, 50⟩,
   ⟨"h", "s04", 50, 50⟩, ⟨"h", "s05", 50, 50⟩, ⟨"h", "s06", 50, 50⟩,
   ⟨"h", "s07", 50, 50⟩, ⟨"h", "s08", 50, 50⟩, ⟨"h", "s09", 50, 50⟩,
   ⟨"h", "s10", 50, 50⟩, ⟨"h", "s11", 50, 50⟩, ⟨"h", "s12", 50, 50⟩,
   ⟨"h", "s13", 50, 50⟩, ⟨"h", "s14", 50, 50⟩, ⟨"h", "s15", 50, 50⟩]

/-- The hub-and-spokes graph. -/
def gC8 : Graph :=
  { nodes := ["h", "s01", "s02", "s03", "s04", "s05", "s06", "s07", "s08",
      "s09", "s10", "s11", "s12", "s13", "s14", "s15"]
    edges := spokeEdges }

/-- **C8 counterexample.** After pruning, the graph can still contain a
node of degree below `MIN_DEGREE = 15`: in the hub-and-spokes graph the
hub has degree 15 and survives the single-pass degree filter, but all
its neighbours are removed by it, so the hub is left in the pruned
graph with degree 0. -/
theorem graph_pruning_counterexample :
    (pruneGraph gC8).nodes = ["h"] ∧
    degreeIn (pruneGraph gC8).edges "h" = 0 ∧
    degreeIn (pruneGraph gC8).edges "h" < MIN_DEGREE := by decide

/-- **C8 (amended).** After the pruning step, no surviving edge has
weight below `MIN_EDGE_WEIGHT = 50`, and every surviving node had
degree at least `MIN_DEGREE = 15` measured over the strong edges only
(the edge filter precedes the degree measurement); because the
low-degree nodes are collected in a single pass and removed together
with their incident edges, a surviving node's degree in the final
graph may nevertheless drop below the minimum. -/
theorem graph_pruning_invariants (g : Graph) :
    (∀ e ∈ (pruneGraph g).edges, MIN_EDGE_WEIGHT ≤ e.weight) ∧
    (∀ n ∈ (pruneGraph g).nodes,
      MIN_DEGREE ≤ degreeIn
        (g.edges.filter (fun e => !(e.weight < MIN_EDGE_WEIGHT : Bool))) n) := by
  constructor
  · intro e he
    simp only [pruneGraph, List.mem_filter, Bool.and_eq_true, Bool.not_eq_true',
      decide_eq_false_iff_not, not_lt] at he
    exact he.1.2
  · intro n hn
    simp only [pruneGraph, List.mem_filter, Bool.and_eq_true, Bool.not_eq_true',
      decide_eq_false_iff_not, not_lt] at hn
    rcases hn with ⟨hni, hnl⟩
    by_contra hlt
    apply hnl
    exact ⟨hni, by simpa using not_le.mp hlt⟩

/-- All unordered pairs over a node list, as minimum-weight edges. -/
def allPairEdges : List String → List GEdge
  | [] => []
  | x :: xs => xs.map (fun y => ⟨x, y, 50, 50⟩) ++ allPairEdges xs

/-- A complete graph on 16 wallets: every node reaches degree 15. -/
def gK16 : Graph :=
  { nodes := ["n01", "n02", "n03", "n04", "n05", "n06", "n07", "n08",
      "n09", "n10", "n11", "n12", "n13", "n14", "n15", "n16"]
    edges := allPairEdges ["n01", "n02", "n03", "n04", "n05", "n06", "n07",
      "n08", "n09", "n10", "n11", "n12", "n13", "n14", "n15", "n16"] }

/-- Witness for C8 on the complete graph `gK16`, where an edge and a
node survive pruning. -/
theorem graph_pruning_invariants_witness :
    MIN_EDGE_WEIGHT ≤ (⟨"n01", "n02", 50, 50⟩ : GEdge).weight ∧
    MIN_DEGREE ≤ degreeIn
      (gK16.edges.filter (fun e => !(e.weight < MIN_EDGE_WEIGHT : Bool))) "n01" :=
  ⟨(graph_pruning_invariants gK16).1 ⟨"n01", "n02", 50, 50⟩ (by decide),
    (graph_pruning_invariants gK16).2 "n01" (by decide)⟩

/-! ## Cluster persistence (C2) -/

theorem foldl_saveClustersStep_fst (todo : List Cluster) :
    ∀ (a : List ClusterRow) (b : List ScoreRow),
      (todo.foldl saveClustersStep (a, b)).1 =
        todo.foldl (fun rows c => upsertClusterRow rows (toClusterRow c)) a := by
  induction todo with
  | nil => intro a b; rfl
  | cons c rest ih =>
      intro a b
      rw [List.foldl_cons, List.foldl_cons]
      exact ih _ _

theorem linkWallet_cluster_id {ws : List ScoreRow} {cid w : String} {row : ScoreRow}
    (h : row ∈ linkWallet ws cid w) :
    row.cluster_id = some cid ∨ row ∈ ws := by
  rcases List.mem_map.mp h with ⟨r0, hr0, heq⟩
  by_cases hw : r0.wallet_address = w
  · left
    rw [← heq]
    simp [hw]
  · right
    rw [← heq]
    simp only [if_neg hw]
    exact hr0

theorem linkFold_cluster_id (cid : String) (wallets : List String) :
    ∀ (ws : List ScoreRow) (row : ScoreRow),
      row ∈ wallets.foldl (fun ws w => linkWallet ws cid w) ws →
      row.cluster_id = some cid ∨ row ∈ ws := by
  induction wallets with
  | nil => intro ws row h; exact Or.inr h
  | cons w rest ih =>
      intro ws row h
      rw [List.foldl_cons] at h
      rcases ih (linkWallet ws cid w) row h with hc | hmem
      · exact Or.inl hc
      · exact linkWallet_cluster_id hmem

theorem saveClusters_link_invariant (cs0 : List Cluster) (todo : List Cluster) :
    ∀ (a : List ClusterRow) (b : List ScoreRow),
      (∀ c ∈ todo, c ∈ cs0) →
      (∀ row ∈ b, row.cluster_id = none ∨
        ∃ c ∈ cs0, row.cluster_id = some c.cluster_id) →
      ∀ row ∈ (todo.foldl saveClustersStep (a, b)).2,
        row.cluster_id = none ∨ ∃ c ∈ cs0, row.cluster_id = some c.cluster_id := by
  induction todo with
  | nil => intro a b _ hb row h; exact hb row h
  | cons c rest ih =>
      intro a b hsub hb row h
      rw [List.foldl_cons] at h
      apply ih _ _ (fun c1 hc1 => hsub c1 (by simp [hc1])) _ row h
      intro row2 h2
      rcases linkFold_cluster_id c.cluster_id c.wallets b row2 h2 with hc | hmem
      · exact Or.inr ⟨c, hsub c (by simp), hc⟩
      · exact hb row2 hmem

theorem upsert_fold_clusters (todo : List Cluster) :
    ∀ acc : List ClusterRow,
      (todo.map (fun c => c.cluster_id)).Nodup →
      (∀ c ∈ todo, ¬ acc.any (fun r0 => r0.cluster_id = c.cluster_id) = true) →
      todo.foldl (fun rows c => upsertClusterRow rows (toClusterRow c)) acc =
        acc ++ todo.map toClusterRow := by
  induction todo with
  | nil => intro acc _ _; simp
  | cons c rest ih =>
      intro acc hnd hacc
      rw [List.foldl_cons]
      have hstep : upsertClusterRow acc (toClusterRow c) = acc ++ [toClusterRow c] := by
        unfold upsertClusterRow
        have hid : (toClusterRow c).cluster_id = c.cluster_id := rfl
        rw [hid, if_neg (hacc c (by simp))]
      rw [hstep, ih _ (List.nodup_cons.mp (by simpa using hnd)).2]
      · simp
      · intro c1 hc1
        simp only [List.any_append, Bool.or_eq_true, not_or]
        constructor
        · exact hacc c1 (by simp [hc1])
        · have hne : c.cluster_id ∉ rest.map (fun c => c.cluster_id) :=
            (List.nodup_cons.mp (by simpa using hnd)).1
          simp only [List.any_cons, List.any_nil, Bool.or_false, toClusterRow,
            decide_eq_true_eq]
          intro heq
          exact hne (by rw [heq]; exact List.mem_map.mpr ⟨c1, hc1, rfl⟩)

/-- **C2 (amended).** When a detection run finds at least one cluster,
`save_clusters` runs: every prior cluster row is deleted and every
wallet link cleared before the new clusters are inserted and their
members relinked, so afterwards the `clusters` table holds exactly the
newly detected clusters (their `uuid` identifiers are fresh, hence
pairwise distinct) and every wallet's `cluster_id` is either NULL or
one of the new identifiers — never one from a previous run.  When the
run detects zero clusters, however, the store is left untouched. -/
theorem cluster_run_replace (db : Db) (g : Graph) (ids : ℕ → String)
    (comms : List (List String)) (cs : List Cluster)
    (hcs : cs = detectCommunities g db.walletScores ids comms) :
    (cs = [] → clusterRun db g ids comms = db) ∧
    (cs ≠ [] →
      (∀ row ∈ (clusterRun db g ids comms).walletScores,
        row.cluster_id = none ∨ ∃ c ∈ cs, row.cluster_id = some c.cluster_id) ∧
      ((cs.map (fun c => c.cluster_id)).Nodup →
        (clusterRun db g ids comms).clusters = cs.map toClusterRow)) := by
  constructor
  · intro he
    unfold clusterRun
    rw [← hcs, he]
    rfl
  · intro hne
    have hrun : clusterRun db g ids comms = saveClusters db cs := by
      unfold clusterRun
      rw [← hcs, if_neg (by simpa [List.isEmpty_iff] using hne)]
    constructor
    · intro row hrow
      rw [hrun] at hrow
      unfold saveClusters at hrow
      simp only at hrow
      apply saveClusters_link_invariant cs cs [] _ (fun c hc => hc) _ row hrow
      intro row2 h2
      rcases List.mem_map.mp h2 with ⟨r0, _, heq⟩
      left
      rw [← heq]
    · intro hnd
      rw [hrun]
      unfold saveClusters
      simp only
      rw [foldl_saveClustersStep_fst, upsert_fold_clusters cs [] hnd (by simp)]
      simp

/-- A stored wallet score still linked to the stale cluster `"old"`. -/
def rowC2 : ScoreRow :=
  { wallet_address := "w", eoa_address := none, total_trades := 0,
    win_rate := 0, avg_entry_before_resolution := none, p_value := 1,
    size_win_correlation := 0, total_pnl := 0, insider_score := 0,
    cluster_id := some "old", last_updated := "" }

/-- The stale cluster row from a previous detection run. -/
def oldClusterC2 : ClusterRow :=
  { cluster_id := "old", wallet_count := 3, combined_pnl := 0,
    shared_funding_source := none, confidence := 50 }

/-- Store state left by a previous detection run. -/
def dbC2 : Db :=
  { markets := [], trades := [], walletScores := [rowC2],
    clusters := [oldClusterC2], ingestionState := [] }

/-- **C2 counterexample.** A detection run that finds zero clusters
(here: the empty graph) does not delete prior cluster rows or clear
prior wallet links: `run` only calls `save_clusters` when the detected
list is nonempty, so the stale cluster `"old"` and the wallet's link to
it survive the run. -/
theorem cluster_run_counterexample :
    clusterRun dbC2 ⟨[], []⟩ (fun _ => "new") [] = dbC2 ∧
    dbC2.clusters = [oldClusterC2] ∧
    dbC2.walletScores.map (fun r => r.cluster_id) = [some "old"] :=
  ⟨rfl, rfl, rfl⟩

/-- A stored score linked to a stale cluster, for the C2 witness. -/
def rowC2w : ScoreRow :=
  { wallet_address := "w", eoa_address := none, total_trades := 0,
    win_rate := 0, avg_entry_before_resolution := none, p_value := 1,
    size_win_correlation := 0, total_pnl := 0, insider_score := 0,
    cluster_id := some "old", last_updated := "" }

/-- Store for the C2 witness. -/
def dbC2w : Db :=
  { markets := [], trades := [], walletScores := [rowC2w],
    clusters := [], ingestionState := [] }

/-- Triangle graph for the C2 witness. -/
def gC2w : Graph :=
  { nodes := ["a", "b", "c"]
    edges := [⟨"a", "b", 50, 50⟩, ⟨"b", "c", 50, 50⟩, ⟨"a", "c", 50, 50⟩] }

/-- The cluster detected on `gC2w`. -/
def cC2w : Cluster :=
  { cluster_id := "new", wallet_count := 3, combined_pnl := 0,
    shared_funding_source := none, confidence := 100,
    wallets := ["a", "b", "c"], edge_weight := 150, same_side_share := 1 }

/-- Witness for C2: a run that detects one cluster replaces the
`clusters` table with exactly that cluster's row. -/
theorem cluster_run_replace_witness :
    (clusterRun dbC2w gC2w (fun _ => "new") [["a", "b", "c"]]).clusters =
      [toClusterRow cC2w] := by
  have hconf : clusterConfidence gC2w ["a", "b", "c"] = 100 := by
    have hsub : subgraphEdges gC2w ["a", "b", "c"] = gC2w.edges := by decide
    unfold clusterConfidence
    rw [hsub]
    norm_num [gC2w, roundTo]
  have hmk : mkCluster gC2w dbC2w.walletScores "new" ["a", "b", "c"] = some cC2w := by
    unfold mkCluster
    rw [if_neg (by norm_num [MIN_CLUSTER_SIZE])]
    simp only [hconf]
    rw [if_neg (by norm_num [MIN_CLUSTER_CONFIDENCE])]
    simp [gC2w, dbC2w, rowC2w, subgraphEdges, lookupScore, roundTo, cC2w]
    norm_num
  have hdet : detectCommunities gC2w dbC2w.walletScores (fun _ => "new")
      [["a", "b", "c"]] = [cC2w] := by
    unfold detectCommunities
    rw [if_neg (by decide)]
    simp [List.enum, List.filterMap, hmk, sortDesc, insertDesc]
  have h := ((cluster_run_replace dbC2w gC2w (fun _ => "new") [["a", "b", "c"]]
    [cC2w] hdet.symm).2 (by simp)).2 (by simp)
  simpa using h

/-! ## Rescoring erases cluster links (C10) -/

theorem find_map_replace_other (s : ScoreRow) (w : String)
    (hw : w ≠ s.wallet_address) :
    ∀ ws : List ScoreRow,
      List.find? (fun r => r.wallet_address = w)
        (ws.map (fun r => if r.wallet_address = s.wallet_address then s else r)) =
      List.find? (fun r => r.wallet_address = w) ws := by
  intro ws
  induction ws with
  | nil => rfl
  | cons r rest ih =>
      by_cases hr : r.wallet_address = s.wallet_address
      · simp only [List.map_cons, if_pos hr]
        rw [List.find?_cons_of_neg _ (by simp; exact fun h => hw h.symm),
          List.find?_cons_of_neg _ (by simp; intro h; exact hw (hr ▸ h).symm)]
        exact ih
      · simp only [List.map_cons, if_neg hr]
        by_cases hrw : r.wallet_address = w
        · rw [List.find?_cons_of_pos _ (by simpa using hrw),
            List.find?_cons_of_pos _ (by simpa using hrw)]
        · rw [List.find?_cons_of_neg _ (by simpa using hrw),
            List.find?_cons_of_neg _ (by simpa using hrw)]
          exact ih

theorem lookupScore_upsert_self (ws : List ScoreRow) (s : ScoreRow) :
    lookupScore (upsertScore ws s) s.wallet_address = some s := by
  unfold upsertScore
  split
  · rename_i hany
    induction ws with
    | nil => simp at hany
    | cons r rest ih =>
        by_cases hr : r.wallet_address = s.wallet_address
        · simp only [List.map_cons, if_pos hr, lookupScore]
          rw [List.find?_cons_of_pos _ (by simp)]
        · simp only [List.any_cons, Bool.or_eq_true, decide_eq_true_eq] at hany
          rcases hany with h1 | h2
          · exact absurd h1 hr
          · simp only [List.map_cons, if_neg hr, lookupScore]
            rw [List.find?_cons_of_neg _ (by simpa using hr)]
            exact ih (by simpa using h2)
  · rename_i hany
    induction ws with
    | nil =>
        simp only [List.nil_append, lookupScore]
        rw [List.find?_cons_of_pos _ (by simp)]
    | cons r rest ih =>
        simp only [List.any_cons, Bool.or_eq_true, not_or, decide_eq_true_eq] at hany
        simp only [List.cons_append, lookupScore]
        rw [List.find?_cons_of_neg _ (by simpa using hany.1)]
        exact ih (by simpa [List.any_eq_true] using hany.2)

theorem lookupScore_upsert_other (ws : List ScoreRow) (s : ScoreRow) (w : String)
    (hw : w ≠ s.wallet_address) :
    lookupScore (upsertScore ws s) w = lookupScore ws w := by
  unfold upsertScore
  split
  · exact find_map_replace_other s w hw ws
  · rename_i hany
    clear hany
    unfold lookupScore
    induction ws with
    | nil =>
        simp only [List.nil_append, List.find?_nil]
        rw [List.find?_cons_of_neg _ (by simpa using fun h => hw h.symm)]
        rfl
    | cons r rest ih =>
        simp only [List.cons_append]
        by_cases hrw : r.wallet_address = w
        · rw [List.find?_cons_of_pos _ (by simpa using hrw),
            List.find?_cons_of_pos _ (by simpa using hrw)]
        · rw [List.find?_cons_of_neg _ (by simpa using hrw),
            List.find?_cons_of_neg _ (by simpa using hrw)]
          exact ih

theorem lookup_foldl_not_mem (scores : List ScoreRow) :
    ∀ (ws : List ScoreRow) (w : String),
      w ∉ scores.map (fun s => s.wallet_address) →
      lookupScore (scores.foldl upsertScore ws) w = lookupScore ws w := by
  induction scores with
  | nil => intro ws w _; rfl
  | cons s rest ih =>
      intro ws w hw
      simp only [List.map_cons, List.mem_cons, not_or] at hw
      rw [List.foldl_cons, ih _ w (by simpa using hw.2),
        lookupScore_upsert_other ws s w hw.1]

theorem lookup_foldl_mem (scores : List ScoreRow) :
    ∀ (ws : List ScoreRow) (w : String),
      w ∈ scores.map (fun s => s.wallet_address) →
      ∃ r ∈ scores, r.wallet_address = w ∧
        lookupScore (scores.foldl upsertScore ws) w = some r := by
  induction scores with
  | nil => intro ws w hw; simp at hw
  | cons s rest ih =>
      intro ws w hw
      rw [List.foldl_cons]
      by_cases hmem : w ∈ rest.map (fun s => s.wallet_address)
      · rcases ih _ w hmem with ⟨r, hr, hrw, hlook⟩
        exact ⟨r, by simp [hr], hrw, hlook⟩
      · have hws : w = s.wallet_address := by
          simp only [List.map_cons, List.mem_cons] at hw
          tauto
        rw [lookup_foldl_not_mem rest _ w hmem, hws, lookupScore_upsert_self]
        exact ⟨s, by simp, rfl, rfl⟩

/-- **C10.** Every score record `score_wallet` produces carries
`cluster_id = None`, and `save_scores` performs a full per-wallet row
replace that never touches the `clusters` table: after persisting a
batch of such records, each rescored wallet's stored row is one of the
batch records — so its `cluster_id` is NULL, erasing any
wallet-to-cluster link a prior detection run wrote — while the cluster
rows themselves are untouched. -/
theorem rescoring_clears_links (ext : StatExt) (minTrades : ℕ)
    (resTs : String → Option ℤ) (nowStr : String) :
    (∀ (wallet : String) (trades : List TradeRow),
      (scoreWallet ext minTrades resTs nowStr wallet trades).elim True
        (fun r => r.cluster_id = none)) ∧
    (∀ (db : Db) (scores : List ScoreRow),
      (∀ s ∈ scores, s.cluster_id = none) →
      (saveScores db scores).clusters = db.clusters ∧
      ∀ s ∈ scores, ∃ r ∈ scores,
        r.wallet_address = s.wallet_address ∧
        lookupScore (saveScores db scores).walletScores s.wallet_address = some r ∧
        r.cluster_id = none) := by
  constructor
  · intro wallet trades
    unfold scoreWallet
    by_cases h : (resolvedBuyTrades trades).length < minTrades
    · simp [h]
    · simp [h]
  · intro db scores hnone
    constructor
    · unfold saveScores
      split
      · rfl
      · rfl
    · intro s hs
      have hne : ¬ scores.isEmpty = true := by
        cases scores
        · cases hs
        · simp
      unfold saveScores
      rw [if_neg hne]
      simp only
      have hw : s.wallet_address ∈ scores.map (fun s => s.wallet_address) :=
        List.mem_map.mpr ⟨s, hs, rfl⟩
      rcases lookup_foldl_mem scores db.walletScores s.wallet_address hw with
        ⟨r, hr, hrw, hlook⟩
      exact ⟨r, hr, hrw, hlook, hnone r hr⟩

/-- A freshly computed score record (`cluster_id = None`). -/
def rowC10 : ScoreRow :=
  { wallet_address := "w", eoa_address := none, total_trades := 25,
    win_rate := 1, avg_entry_before_resolution := none, p_value := 1,
    size_win_correlation := 0, total_pnl := 10, insider_score := 40,
    cluster_id := none, last_updated := "t" }

/-- The same wallet's stored row, still linked by the detector. -/
def rowC10old : ScoreRow :=
  { wallet_address := "w", eoa_address := none, total_trades := 25,
    win_rate := 1, avg_entry_before_resolution := none, p_value := 1,
    size_win_correlation := 0, total_pnl := 10, insider_score := 40,
    cluster_id := some "old", last_updated := "t" }

/-- A cluster row from the previous detection run. -/
def oldC10 : ClusterRow :=
  { cluster_id := "old", wallet_count := 3, combined_pnl := 0,
    shared_funding_source := none, confidence := 50 }

/-- Store state before rescoring, for the C10 witness. -/
def dbC10 : Db :=
  { markets := [], trades := [], walletScores := [rowC10old],
    clusters := [oldC10], ingestionState := [] }

/-- Witness for C10: rescoring wallet `"w"` replaces its linked row with
the fresh unlinked record while the stale cluster row survives. -/
theorem rescoring_clears_links_witness :
    (saveScores dbC10 [rowC10]).clusters = dbC10.clusters ∧
    lookupScore (saveScores dbC10 [rowC10]).walletScores "w" = some rowC10 := by
  have h := (rescoring_clears_links ⟨fun _ _ _ => 1, fun _ _ => 0, fun _ => 0⟩ 20
    (fun _ => none) "t").2 dbC10 [rowC10] (by simp [rowC10])
  refine ⟨h.1, ?_⟩
  rcases h.2 rowC10 (by simp) with ⟨r, hr, _, hlook, _⟩
  simp only [List.mem_singleton] at hr
  subst hr
  exact hlook

/-! ## Rate limiter safety (C9) -/

theorem filter_window_mono (T : ℚ) (last now : ℚ) (hmono : last ≤ now)
    (comps : List ℚ) :
    comps.filter (fun c => decide (now - c < T)) =
      (comps.filter (fun c => decide (last - c < T))).filter
        (fun c => decide (now - c < T)) := by
  rw [List.filter_filter]
  apply List.filter_congr
  intro c _
  by_cases hc : now - c < T
  · have hl : last - c < T := by linarith
    simp [hc, hl]
  · simp [hc]

/-- Invariant of `RateLimiter.acquire`: recorded timestamps are exactly
the completions still inside the window — a completion inside the
current window is never lost from `self._timestamps` (purging removes
only entries at least `T` old, which stay outside every later window
since the clock is monotone) — and completion times never exceed the
clock. -/
theorem run_window_sublist {T : ℚ} {N : ℕ} {last : ℚ} {st comps : List ℚ}
    (hT : 0 < T) (h : Run T N last st comps) :
    List.Sublist (comps.filter (fun c => decide (last - c < T))) st ∧
      ∀ c ∈ comps, c ≤ last := by
  induction h with
  | init t0 => simp
  | fail now hmono hfull hrun ih =>
      rename_i last0 st0 comps0
      constructor
      · rw [filter_window_mono T last0 now hmono]
        exact ih.1.filter _
      · exact fun c hc => le_trans (ih.2 c hc) hmono
  | succ now hmono hroom hrun ih =>
      rename_i last0 st0 comps0
      constructor
      · rw [List.filter_append]
        have hnow : (List.filter (fun c => decide (now - c < T)) [now]) = [now] := by
          simp
          linarith
        rw [hnow, filter_window_mono T last0 now hmono]
        exact (ih.1.filter _).append (List.Sublist.refl [now])
      · intro c hc
        rcases List.mem_append.mp hc with hc1 | hc2
        · exact le_trans (ih.2 c hc1) hmono
        · simp only [List.mem_singleton] at hc2
          exact le_of_eq hc2

/-- **C9.** Sliding-window rate limiter safety: in every execution of a
`RateLimiter(N, T)` with `T > 0` — any interleaving of any number of
`acquire` calls, concurrent ones included, since each loop iteration
runs atomically between `await`s — every sliding window `(a, a + T]`
of length `T` contains at most `N` acquire completions.  Equivalently,
an `(N+1)`-th completion strictly within `T` seconds of `N` earlier
completions never occurs. -/
theorem rate_limiter_sliding_window {T : ℚ} {N : ℕ} {last : ℚ} {st comps : List ℚ}
    (hT : 0 < T) (h : Run T N last st comps) :
    ∀ a : ℚ,
      (comps.filter (fun c => decide (a < c) && decide (c ≤ a + T))).length ≤ N := by
  induction h with
  | init t0 => intro a; simp
  | fail now hmono hfull hrun ih => exact ih
  | succ now hmono hroom hrun ih =>
      rename_i last0 st0 comps0
      intro a
      rw [List.filter_append, List.length_append]
      by_cases hin : a < now ∧ now ≤ a + T
      · have h1 : List.Sublist
            (comps0.filter (fun c => decide (a < c) && decide (c ≤ a + T)))
            (comps0.filter (fun c => decide (now - c < T))) := by
          apply filter_sublist_filter
          intro c hc
          simp only [Bool.and_eq_true, decide_eq_true_eq] at hc
          simp only [decide_eq_true_eq]
          linarith [hin.2, hc.1]
        have h2 : List.Sublist (comps0.filter (fun c => decide (now - c < T)))
            (purge T st0 now) := by
          rw [filter_window_mono T last0 now hmono]
          exact ((run_window_sublist hT hrun).1).filter _
        have h3 := (h1.trans h2).length_le
        have h4 : (List.filter (fun c => decide (a < c) && decide (c ≤ a + T))
            [now]).length ≤ 1 := by
          simp only [List.filter_cons, List.filter_nil]
          split
          · simp
          · simp
        omega
      · have h4 : (List.filter (fun c => decide (a < c) && decide (c ≤ a + T))
            [now]).length = 0 := by
          simp only [List.filter_cons, List.filter_nil]
          rw [if_neg]
          · rfl
          · simp only [Bool.and_eq_true, decide_eq_true_eq]
            exact hin
        rw [h4]
        have := ih a
        omega

/-- Witness for C9: a limiter with `N = 2`, `T = 10` admits completions
at times 0 and 5; the window `(-1, 9]` holds both, within the bound. -/
theorem rate_limiter_sliding_window_witness :
    ((([0, 5] : List ℚ)).filter
      (fun c => decide ((-1 : ℚ) < c) && decide (c ≤ -1 + 10))).length ≤ 2 := by
  have h0 : Run 10 2 0 (purge 10 [] 0 ++ [0]) ([] ++ [0]) :=
    Run.succ 0 le_rfl (by norm_num [purge]) (Run.init 0)
  have h1 : Run 10 2 5 (purge 10 (purge 10 [] 0 ++ [0]) 5 ++ [5])
      (([] ++ [0]) ++ [5]) :=
    Run.succ 5 (by norm_num) (by norm_num [purge]) h0
  exact rate_limiter_sliding_window (by norm_num) h1 (-1)

/-! ## Ingestion resumability (C1) -/

theorem insertTradeRows_append_sub (ts : List TradeRow) :
    ∀ rows, ∃ ins, insertTradeRows rows ts = rows ++ ins ∧ ∀ t ∈ ins, t ∈ ts := by
  induction ts with
  | nil => intro rows; exact ⟨[], by simp [insertTradeRows], by simp⟩
  | cons t rest ih =>
      intro rows
      simp only [insertTradeRows, List.foldl_cons]
      by_cases h : hasId rows t.id = true
      · rw [if_pos h]
        rcases ih rows with ⟨ins, heq, hmem⟩
        exact ⟨ins, heq, fun t1 ht1 => by simp [hmem t1 ht1]⟩
      · rw [if_neg h]
        rcases ih (rows ++ [t]) with ⟨ins, heq, hmem⟩
        refine ⟨[t] ++ ins, by simpa [List.append_assoc] using heq, ?_⟩
        intro t1 ht1
        rcases List.mem_append.mp ht1 with h1 | h2
        · simp only [List.mem_singleton] at h1
          simp [h1]
        · simp [hmem t1 h2]

theorem markWinners_map_market_id (db : Db) (mid oc : String) :
    (markWinners db mid oc).trades.map (fun t => t.market_id) =
      db.trades.map (fun t => t.market_id) := by
  unfold markWinners
  simp only [List.map_map]
  apply List.map_congr_left
  intro t _
  by_cases h : t.market_id = mid
  · simp [h]
  · simp [h]

theorem processMarket_markets (remote : String → List TradeRow) (db : Db)
    (m : MarketRow) : (processMarket remote db m).markets = db.markets := by
  unfold processMarket insertTrades markWinners markMarketTradesComplete
  split
  · rfl
  · cases m.outcome <;> rfl

theorem processAll_markets (remote : String → List TradeRow) (todo : List MarketRow) :
    ∀ db : Db, (processAll remote db todo).markets = db.markets := by
  induction todo with
  | nil => intro db; rfl
  | cons m rest ih =>
      intro db
      unfold processAll at *
      rw [List.foldl_cons, ih, processMarket_markets]

theorem processMarket_trades_market_ids (remote : String → List TradeRow)
    (db : Db) (m : MarketRow) :
    ∃ e1, (processMarket remote db m).trades.map (fun t => t.market_id) =
      db.trades.map (fun t => t.market_id) ++ e1 ∧ ∀ x ∈ e1, x = m.id := by
  unfold processMarket
  by_cases hc : m.condition_id = ""
  · rw [if_pos hc]
    exact ⟨[], by simp, by simp⟩
  · rw [if_neg hc]
    simp only
    rcases insertTradeRows_append_sub
      ((remote m.condition_id).map (normalizeForInsert m.id)) db.trades with
      ⟨ins, heq, hmem⟩
    have hins : ∀ t ∈ ins, t.market_id = m.id := by
      intro t ht
      rcases List.mem_map.mp (hmem t ht) with ⟨t0, _, heq0⟩
      rw [← heq0]
      rfl
    refine ⟨ins.map (fun t => t.market_id), ?_, ?_⟩
    · cases ho : m.outcome with
      | none =>
          simp only [markMarketTradesComplete, insertTrades]
          rw [heq]
          simp
      | some oc =>
          simp only [markMarketTradesComplete]
          rw [markWinners_map_market_id]
          simp only [insertTrades]
          rw [heq]
          simp
    · intro x hx
      rcases List.mem_map.mp hx with ⟨t, ht, heq1⟩
      rw [← heq1]
      exact hins t ht

theorem processAll_trades_market_ids (remote : String → List TradeRow)
    (todo : List MarketRow) :
    ∀ db : Db, ∃ extra,
      (processAll remote db todo).trades.map (fun t => t.market_id) =
        db.trades.map (fun t => t.market_id) ++ extra ∧
      ∀ x ∈ extra, x ∈ todo.map (fun m => m.id) := by
  induction todo with
  | nil => intro db; exact ⟨[], by simp [processAll], by simp⟩
  | cons m rest ih =>
      intro db
      unfold processAll at *
      rw [List.foldl_cons]
      rcases ih (processMarket remote db m) with ⟨extra, heq, hmem⟩
      rcases processMarket_trades_market_ids remote db m with ⟨e1, heq1, hmem1⟩
      refine ⟨e1 ++ extra, by rw [heq, heq1, List.append_assoc], ?_⟩
      intro x hx
      rcases List.mem_append.mp hx with h1 | h2
      · simp [hmem1 x h1]
      · simp only [List.map_cons, List.mem_cons]
        exact Or.inr (hmem x h2)

theorem upsertState_key_mono (st : List (String × String)) (k v x : String)
    (h : st.any (fun kv => kv.1 = x) = true) :
    (upsertState st k v).any (fun kv => kv.1 = x) = true := by
  unfold upsertState
  split
  · rcases List.any_eq_true.mp h with ⟨kv, hkv, hx⟩
    apply List.any_eq_true.mpr
    refine ⟨if kv.1 = k then (k, v) else kv, List.mem_map.mpr ⟨kv, hkv, rfl⟩, ?_⟩
    simp only [decide_eq_true_eq] at hx
    by_cases hk : kv.1 = k
    · simp only [if_pos hk]
      simp [← hk, hx]
    · simp only [if_neg hk]
      simp [hx]
  · simp only [List.any_append, Bool.or_eq_true]
    exact Or.inl h

theorem upsertState_key_sub (st : List (String × String)) (k v x : String)
    (h : (upsertState st k v).any (fun kv => kv.1 = x) = true) :
    st.any (fun kv => kv.1 = x) = true ∨ x = k := by
  unfold upsertState at h
  split at h
  · rcases List.any_eq_true.mp h with ⟨kv1, hkv1, hx⟩
    rcases List.mem_map.mp hkv1 with ⟨kv, hkv, heq⟩
    simp only [decide_eq_true_eq] at hx
    by_cases hk : kv.1 = k
    · rw [if_pos hk] at heq
      right
      rw [← hx, ← heq]
    · rw [if_neg hk] at heq
      left
      exact List.any_eq_true.mpr ⟨kv, hkv, by simp [heq ▸ hx]⟩
  · simp only [List.any_append, Bool.or_eq_true] at h
    rcases h with h1 | h2
    · exact Or.inl h1
    · simp only [List.any_cons, List.any_nil, Bool.or_false, decide_eq_true_eq] at h2
      exact Or.inr h2.symm

theorem upsertState_key_self (st : List (String × String)) (k v : String) :
    (upsertState st k v).any (fun kv => kv.1 = k) = true := by
  unfold upsertState
  split
  · rename_i hany
    rcases List.any_eq_true.mp hany with ⟨kv, hkv, hx⟩
    apply List.any_eq_true.mpr
    simp only [decide_eq_true_eq] at hx
    exact ⟨(k, v), List.mem_map.mpr ⟨kv, hkv, by simp [hx]⟩, by simp⟩
  · simp [List.any_append]

theorem processMarket_ingestionState (remote : String → List TradeRow) (db : Db)
    (m : MarketRow) :
    (processMarket remote db m).ingestionState =
      if m.condition_id = "" then db.ingestionState
      else upsertState db.ingestionState (watermarkKey m.id)
        (toString ((remote m.condition_id).map (normalizeForInsert m.id)).length) := by
  unfold processMarket markMarketTradesComplete insertTrades markWinners
  split
  · rfl
  · cases m.outcome <;> rfl

theorem processMarket_state_mono (remote : String → List TradeRow) (db : Db)
    (m : MarketRow) (x : String) (h : hasWatermark db x = true) :
    hasWatermark (processMarket remote db m) x = true := by
  unfold hasWatermark at *
  rw [processMarket_ingestionState]
  split
  · exact h
  · exact upsertState_key_mono _ _ _ _ h

theorem processAll_state_mono (remote : String → List TradeRow)
    (todo : List MarketRow) :
    ∀ (db : Db) (x : String), hasWatermark db x = true →
      hasWatermark (processAll remote db todo) x = true := by
  induction todo with
  | nil => intro db x h; exact h
  | cons m rest ih =>
      intro db x h
      unfold processAll at *
      rw [List.foldl_cons]
      exact ih _ x (processMarket_state_mono remote db m x h)

theorem processMarket_watermark_self (remote : String → List TradeRow) (db : Db)
    (m : MarketRow) (hc : m.condition_id ≠ "") :
    hasWatermark (processMarket remote db m) m.id = true := by
  unfold hasWatermark
  rw [processMarket_ingestionState, if_neg hc]
  exact upsertState_key_self _ _ _

theorem processAll_watermark_of_mem (remote : String → List TradeRow)
    (todo : List MarketRow) :
    ∀ (db : Db) (m : MarketRow), m ∈ todo → m.condition_id ≠ "" →
      hasWatermark (processAll remote db todo) m.id = true := by
  induction todo with
  | nil => intro db m h; cases h
  | cons m0 rest ih =>
      intro db m hm hc
      unfold processAll at *
      rw [List.foldl_cons]
      rcases List.mem_cons.mp hm with rfl | hmem
      · exact processAll_state_mono remote rest _ m.id
          (processMarket_watermark_self remote db m hc)
      · exact ih _ m hmem hc

theorem processMarket_state_sub (remote : String → List TradeRow) (db : Db)
    (m : MarketRow) (x : String)
    (h : hasWatermark (processMarket remote db m) x = true) :
    hasWatermark db x = true ∨ watermarkKey x = watermarkKey m.id := by
  unfold hasWatermark at *
  rw [processMarket_ingestionState] at h
  split at h
  · exact Or.inl h
  · exact upsertState_key_sub _ _ _ _ h

theorem processAll_state_sub (remote : String → List TradeRow)
    (todo : List MarketRow) :
    ∀ (db : Db) (x : String),
      hasWatermark (processAll remote db todo) x = true →
      hasWatermark db x = true ∨
        ∃ m ∈ todo, watermarkKey x = watermarkKey m.id := by
  induction todo with
  | nil => intro db x h; exact Or.inl h
  | cons m0 rest ih =>
      intro db x h
      unfold processAll at *
      rw [List.foldl_cons] at h
      rcases ih _ x h with h1 | ⟨m, hm, hk⟩
      · rcases processMarket_state_sub remote db m0 x h1 with h2 | h2
        · exact Or.inl h2
        · exact Or.inr ⟨m0, by simp, h2⟩
      · exact Or.inr ⟨m, by simp [hm], hk⟩

theorem watermarkKey_inj {a b : String} (h : watermarkKey a = watermarkKey b) :
    a = b := by
  unfold watermarkKey at h
  have hd := congrArg String.data h
  simp only [String.data_append, List.append_assoc] at hd
  apply String.ext
  exact List.append_cancel_right (List.append_cancel_left hd)

theorem hasTrades_iff_mem_map (db : Db) (x : String) :
    hasTrades db x = true ↔ x ∈ db.trades.map (fun t => t.market_id) := by
  unfold hasTrades
  rw [List.any_eq_true]
  constructor
  · rintro ⟨t, ht, hx⟩
    simp only [decide_eq_true_eq] at hx
    exact List.mem_map.mpr ⟨t, ht, hx⟩
  · intro hx
    rcases List.mem_map.mp hx with ⟨t, ht, hx1⟩
    exact ⟨t, ht, by simp [hx1]⟩

theorem bool_eq_of_iff {a b : Bool} (h : a = true ↔ b = true) : a = b := by
  cases a <;> cases b <;> simp_all

theorem filter_split_take_drop {α : Type} (p : α → Bool) (l : List α) (n : ℕ)
    (h1 : ∀ x ∈ l.take n, p x = false) (h2 : ∀ x ∈ l.drop n, p x = true) :
    l.filter p = l.drop n := by
  conv_lhs => rw [← List.take_append_drop n l]
  rw [List.filter_append,
    List.filter_eq_nil_iff.mpr (fun a ha => by simp [h1 a ha]),
    List.filter_eq_self.mpr h2, List.nil_append]

theorem filter_not_mem_take_eq_drop {α β : Type} [DecidableEq β] (f : α → β)
    (l : List α) (n : ℕ) (h : (l.map f).Nodup) :
    l.filter (fun x => !(f x ∈ (l.take n).map f : Bool)) = l.drop n := by
  apply filter_split_take_drop
  · intro x hx
    simp only [Bool.not_eq_eq_eq_not, Bool.not_false, decide_eq_true_eq]
    exact List.mem_map.mpr ⟨x, hx, rfl⟩
  · intro x hx
    have hmap : l.map f = (l.take n).map f ++ (l.drop n).map f := by
      rw [← List.map_append, List.take_append_drop]
    rw [hmap] at h
    have hdisj := (List.nodup_append.mp h).2.2
    simp only [Bool.not_eq_eq_eq_not, Bool.not_true, decide_eq_false_iff_not]
    intro hcontra
    exact hdisj hcontra (List.mem_map.mpr ⟨x, hx, rfl⟩)

/-- **C1 (amended).** Resumability of trade ingestion under the actual
selection query: Phase 2 selects the resolved markets that have *no
completion watermark and no stored trades*, at most 50000 of them.
For a store whose markets table is sorted by resolution time
(descending, as the query orders) with distinct market ids and at most
50000 rows: if a run is interrupted cleanly after completing the first
`N` selected markets (watermark written; completion implies a
non-empty `condition_id`), the restarted run selects exactly the
remaining markets, the store it produces equals the store of an
uninterrupted run, and in particular the final trade counts agree. -/
theorem ingestion_resumable (remote : String → List TradeRow) (db0 : Db) (N : ℕ)
    (hsort : db0.markets.Pairwise (fun a b => b.resolution_time ≤ a.resolution_time))
    (hnodup : (db0.markets.map (fun m => m.id)).Nodup)
    (hlen : db0.markets.length ≤ 50000)
    (hcid : ∀ m ∈ (getMarketsWithoutTrades db0).take N, m.condition_id ≠ "") :
    getMarketsWithoutTrades
        (processAll remote db0 ((getMarketsWithoutTrades db0).take N)) =
      (getMarketsWithoutTrades db0).drop N ∧
    ingestAllTrades remote
        (processAll remote db0 ((getMarketsWithoutTrades db0).take N)) =
      ingestAllTrades remote db0 ∧
    tradeCount (ingestAllTrades remote
        (processAll remote db0 ((getMarketsWithoutTrades db0).take N))) =
      tradeCount (ingestAllTrades remote db0) := by
  have hfilter_sorted :
      (db0.markets.filter (eligibleMarket db0)).Pairwise
        (fun a b => b.resolution_time ≤ a.resolution_time) :=
    List.Pairwise.sublist (List.filter_sublist _) hsort
  have hmsA : getMarketsWithoutTrades db0 = db0.markets.filter (eligibleMarket db0) := by
    unfold getMarketsWithoutTrades
    rw [sortDesc_eq_self _ _ hfilter_sorted,
      List.take_of_length_le (le_trans (List.length_filter_le _ _) hlen)]
  set ms := getMarketsWithoutTrades db0 with hms
  set dbI := processAll remote db0 (ms.take N) with hdbI
  have hnodup_ms : (ms.map (fun m => m.id)).Nodup := by
    rw [hmsA]
    exact List.Nodup.sublist (List.Sublist.map _ (List.filter_sublist _)) hnodup
  -- watermark characterization
  have hw : ∀ x : String, hasWatermark dbI x = true ↔
      hasWatermark db0 x = true ∨ x ∈ (ms.take N).map (fun m => m.id) := by
    intro x
    constructor
    · intro h
      rcases processAll_state_sub remote (ms.take N) db0 x h with h1 | ⟨m, hm, hk⟩
      · exact Or.inl h1
      · exact Or.inr (List.mem_map.mpr ⟨m, hm, (watermarkKey_inj hk).symm⟩)
    · intro h
      rcases h with h1 | h2
      · exact processAll_state_mono remote (ms.take N) db0 x h1
      · rcases List.mem_map.mp h2 with ⟨m, hm, hid⟩
        rw [← hid]
        exact processAll_watermark_of_mem remote (ms.take N) db0 m hm (hcid m hm)
  -- trades characterization
  rcases processAll_trades_market_ids remote (ms.take N) db0 with ⟨extra, hmap, hextra⟩
  have ht : ∀ x : String, hasTrades dbI x = true →
      hasTrades db0 x = true ∨ x ∈ (ms.take N).map (fun m => m.id) := by
    intro x h
    rw [hasTrades_iff_mem_map, hmap] at h
    rcases List.mem_append.mp h with h1 | h2
    · exact Or.inl ((hasTrades_iff_mem_map db0 x).mpr h1)
    · exact Or.inr (hextra x h2)
  have ht2 : ∀ x : String, hasTrades db0 x = true → hasTrades dbI x = true := by
    intro x h
    rw [hasTrades_iff_mem_map, hmap]
    exact List.mem_append.mpr (Or.inl ((hasTrades_iff_mem_map db0 x).mp h))
  -- eligibility characterization
  have hfe : db0.markets.filter (eligibleMarket dbI) =
      ms.filter (fun x => !(x.id ∈ (ms.take N).map (fun m => m.id) : Bool)) := by
    have hcongr : db0.markets.filter (eligibleMarket dbI) =
        db0.markets.filter (fun a =>
          !(a.id ∈ (ms.take N).map (fun m => m.id) : Bool) && eligibleMarket db0 a) := by
      apply List.filter_congr
      intro m _
      apply bool_eq_of_iff
      simp only [eligibleMarket, Bool.and_eq_true, Bool.not_eq_true',
        decide_eq_false_iff_not]
      constructor
      · rintro ⟨⟨ho, hwm⟩, htr⟩
        have hni : m.id ∉ (ms.take N).map (fun m => m.id) := by
          intro hmem
          exact absurd ((hw m.id).mpr (Or.inr hmem)) (by simp [hwm])
        refine ⟨hni, ⟨ho, ?_⟩, ?_⟩
        · rw [Bool.eq_false_iff]
          intro hcontra
          exact absurd ((hw m.id).mpr (Or.inl hcontra)) (by simp [hwm])
        · rw [Bool.eq_false_iff]
          intro hcontra
          exact absurd (ht2 m.id hcontra) (by simp [htr])
      · rintro ⟨hni, ⟨ho, hwm⟩, htr⟩
        refine ⟨⟨ho, ?_⟩, ?_⟩
        · rw [Bool.eq_false_iff]
          intro hcontra
          rcases (hw m.id).mp hcontra with h1 | h2
          · exact absurd h1 (by simp [hwm])
          · exact hni h2
        · rw [Bool.eq_false_iff]
          intro hcontra
          rcases ht m.id hcontra with h1 | h2
          · exact absurd h1 (by simp [htr])
          · exact hni h2
    rw [hcongr, ← List.filter_filter, ← hmsA]
  -- selection after the interrupted run
  have hdrop : ms.filter (fun x => !(x.id ∈ (ms.take N).map (fun m => m.id) : Bool)) =
      ms.drop N := filter_not_mem_take_eq_drop (fun m => m.id) ms N hnodup_ms
  have hms_sorted : ms.Pairwise (fun a b => b.resolution_time ≤ a.resolution_time) := by
    rw [hmsA]
    exact hfilter_sorted
  have hsel : getMarketsWithoutTrades dbI = ms.drop N := by
    unfold getMarketsWithoutTrades
    rw [hdbI, processAll_markets, ← hdbI, hfe, hdrop,
      sortDesc_eq_self _ _ (List.Pairwise.sublist (List.drop_sublist _ _) hms_sorted),
      List.take_of_length_le]
    calc (ms.drop N).length ≤ ms.length := by
          rw [List.length_drop]
          omega
      _ ≤ 50000 := by
          rw [hmsA]
          exact le_trans (List.length_filter_le _ _) hlen
  refine ⟨hsel, ?_, ?_⟩
  · unfold ingestAllTrades
    rw [hsel, ← hms]
    show processAll remote (processAll remote db0 (ms.take N)) (ms.drop N) =
      processAll remote db0 ms
    unfold processAll
    rw [← List.foldl_append, List.take_append_drop]
  · apply congrArg
    unfold ingestAllTrades
    rw [hsel, ← hms]
    show processAll remote (processAll remote db0 (ms.take N)) (ms.drop N) =
      processAll remote db0 ms
    unfold processAll
    rw [← List.foldl_append, List.take_append_drop]

/-- A resolved market whose trades were partially ingested (one stored
trade, no completion watermark). -/
def mC1 : MarketRow :=
  { id := "m1", condition_id := "c1", question := "q",
    resolution_time := "2024-01-01", outcome := some "Yes" }

def tC1 : TradeRow :=
  { id := "t1", market_id := "m1", condition_id := "c1", wallet_address := "w",
    eoa_address := none, side := "BUY", outcome := some "Yes",
    outcome_index := some 0, price := 0, size := 1, timestamp := 100,
    transaction_hash := none, is_winner := none }

def dbC1 : Db :=
  { markets := [mC1], trades := [tC1], walletScores := [], clusters := [],
    ingestionState := [] }

/-- **C1 counterexample.** A resolved market lacking a completion
watermark is *not* always selected again: the SQL also requires
`HAVING COUNT(t.id) = 0`, so a market left with stored trades but no
watermark (an interruption mid-market) is skipped by the restarted
run. -/
theorem ingestion_selection_counterexample :
    mC1.outcome.isSome = true ∧
    hasWatermark dbC1 "m1" = false ∧
    mC1 ∈ dbC1.markets ∧
    getMarketsWithoutTrades dbC1 = [] := by
  refine ⟨rfl, rfl, by decide, by decide⟩

/-- Two resolved markets awaiting trade ingestion. -/
def mW1 : MarketRow :=
  { id := "a", condition_id := "ca", question := "q",
    resolution_time := "1", outcome := some "Yes" }

def mW2 : MarketRow :=
  { id := "b", condition_id := "cb", question := "q",
    resolution_time := "1", outcome := some "No" }

def dbW : Db :=
  { markets := [mW1, mW2], trades := [], walletScores := [], clusters := [],
    ingestionState := [] }

def remoteW : String → List TradeRow := fun c =>
  if c = "ca" then
    [{ id := "ta", market_id := "", condition_id := "ca", wallet_address := "w1",
       eoa_address := none, side := "BUY", outcome := some "Yes",
       outcome_index := some 0, price := 1, size := 2, timestamp := 10,
       transaction_hash := none, is_winner := none }]
  else if c = "cb" then
    [{ id := "tb", market_id := "", condition_id := "cb", wallet_address := "w2",
       eoa_address := none, side := "SELL", outcome := some "No",
       outcome_index := some 1, price := 1, size := 3, timestamp := 20,
       transaction_hash := none, is_winner := none }]
  else []

/-- Witness for C1: two resolved markets, interruption after the first;
the restart selects exactly the second and the trade counts agree. -/
theorem ingestion_resumable_witness :
    getMarketsWithoutTrades
        (processAll remoteW dbW ((getMarketsWithoutTrades dbW).take 1)) =
      (getMarketsWithoutTrades dbW).drop 1 ∧
    tradeCount (ingestAllTrades remoteW
        (processAll remoteW dbW ((getMarketsWithoutTrades dbW).take 1))) =
      tradeCount (ingestAllTrades remoteW dbW) := by
  have hsort0 : dbW.markets.Pairwise
      (fun a b => b.resolution_time ≤ a.resolution_time) := by
    simp only [dbW, List.pairwise_cons, List.mem_singleton, List.not_mem_nil,
      false_implies, implies_true, and_true, true_and]
    refine ⟨?_, List.Pairwise.nil⟩
    intro b hb
    subst hb
    exact le_refl _
  have hcid0 : ∀ m ∈ (getMarketsWithoutTrades dbW).take 1,
      m.condition_id ≠ "" := by
    have hf : dbW.markets.filter (eligibleMarket dbW) = [mW1, mW2] := by decide
    have hsel0 : getMarketsWithoutTrades dbW = [mW1, mW2] := by
      unfold getMarketsWithoutTrades
      rw [hf, sortDesc_eq_self _ _ (hf ▸ List.Pairwise.sublist
        (List.filter_sublist _) hsort0)]
      decide
    rw [hsel0]
    decide
  have h := ingestion_resumable remoteW dbW 1 hsort0 (by decide)
    (by decide) hcid0
  exact ⟨h.1, h.2.2⟩
